import Mathlib

/-!
Shallow embedding of the conversation-agent core (src/server.js):
the boundary-aware chunk splitter `splitIntoChunks`, the topic segmenter
`parseTopics`, the context-assembly file rendering, the overlap-context
builder, and the per-chunk formatting loop of `formatTranscription`.
JS strings are modelled as `List Char` (one element per UTF-16 code unit
in the source; all reasoning is generic in the character type).
-/

namespace ConvAgent

/-- JS `text.slice(a, b)` for `0 ≤ a ≤ b` (clamped to the text bounds). -/
def sliceN (l : List Char) (a b : Nat) : List Char :=
  (l.drop a).take (b - a)

/-- JS `\s` character class (WhiteSpace plus LineTerminator code points). -/
def isJsSpace (c : Char) : Bool :=
  c.val = 9 || c.val = 10 || c.val = 11 || c.val = 12 || c.val = 13 || c.val = 32 ||
  c.val = 0xa0 || c.val = 0x1680 || (0x2000 ≤ c.val && c.val ≤ 0x200a) ||
  c.val = 0x2028 || c.val = 0x2029 || c.val = 0x202f || c.val = 0x205f ||
  c.val = 0x3000 || c.val = 0xfeff

def isUpperAZ (c : Char) : Bool := 'A' ≤ c && c ≤ 'Z'

def isLowerAZ (c : Char) : Bool := 'a' ≤ c && c ≤ 'z'

def isDigit09 (c : Char) : Bool := '0' ≤ c && c ≤ '9'

/-- Length of the leading run of characters satisfying `p`. -/
def countLeading (p : Char → Bool) : List Char → Nat
  | [] => 0
  | c :: rest => if p c then countLeading p rest + 1 else 0

/-- Index of the last newline in a list, if any. -/
def lastIdxNL : List Char → Option Nat
  | [] => none
  | c :: rest =>
    match lastIdxNL rest with
    | some j => some (j + 1)
    | none => if c = '\n' then some 0 else none

/-- Match of `/\n\n+/` anchored at the start of the suffix: a run of at
least two newlines, matched greedily (the match length is the whole run). -/
def paragraphAt (cs : List Char) : Option Nat :=
  let r := countLeading (fun c => c = '\n') cs
  if 2 ≤ r then some r else none

/-- Match of `/\n(?=[A-Z][a-z]*:)/` anchored at the start of the suffix:
a newline followed (in lookahead, zero-width) by an uppercase letter, a
run of lowercase letters, and a colon. The match itself is the newline. -/
def speakerAt (cs : List Char) : Option Nat :=
  match cs with
  | '\n' :: c :: rest =>
    if isUpperAZ c && ((rest.dropWhile isLowerAZ).head? = some ':') then some 1 else none
  | _ => none

/-- Match of `/\n(?=\[\d{2}:\d{2})/` anchored at the start of the suffix. -/
def timestampAt (cs : List Char) : Option Nat :=
  match cs with
  | '\n' :: '[' :: d1 :: d2 :: ':' :: d3 :: d4 :: _ =>
    if isDigit09 d1 && isDigit09 d2 && isDigit09 d3 && isDigit09 d4 then some 1 else none
  | _ => none

/-- Match of `/[.!?]\s*\n/` anchored at the start of the suffix: terminal
punctuation, then (greedy, with backtracking) whitespace ending at the
last newline of the leading whitespace run. -/
def sentenceAt (cs : List Char) : Option Nat :=
  match cs with
  | p :: rest =>
    if p = '.' || p = '!' || p = '?' then
      match lastIdxNL (rest.takeWhile isJsSpace) with
      | some j => some (j + 2)
      | none => none
    else none
  | [] => none

/-- Match of `/\n/` anchored at the start of the suffix. -/
def lineAt (cs : List Char) : Option Nat :=
  match cs with
  | '\n' :: _ => some 1
  | _ => none

/-- Model of `String.prototype.matchAll` for a global regex given by an anchored
matcher `m`: scan left to right; at each position record the match
`(index, length)` if any and resume after it, else advance one char.
The first argument is structural fuel; any fuel at least the length of
the scanned suffix gives the full scan (`matchAllM` passes exactly that). -/
def matchAllGo (m : List Char → Option Nat) : Nat → List Char → Nat → List (Nat × Nat)
  | 0, _, _ => []
  | _ + 1, [], _ => []
  | fuel + 1, c :: rest, i =>
    match m (c :: rest) with
    | some L => (i, L) :: matchAllGo m fuel (rest.drop (L - 1)) (i + L)
    | none => matchAllGo m fuel rest (i + 1)

def matchAllM (m : List Char → Option Nat) (w : List Char) : List (Nat × Nat) :=
  matchAllGo m w.length w 0

inductive BoundaryType where
  | paragraph | speaker | timestamp | sentence | line | hard | end_
deriving DecidableEq, Repr

/-- The five boundary patterns of `splitIntoChunks`, with their priority
numbers, in source order. -/
def boundaries : List ((List Char → Option Nat) × Nat × BoundaryType) :=
  [(paragraphAt, 1, .paragraph), (speakerAt, 2, .speaker), (timestampAt, 3, .timestamp),
   (sentenceAt, 4, .sentence), (lineAt, 5, .line)]

/-- JS `Math.abs(a - b)` for natural inputs. -/
def dist (a b : Nat) : Nat := ((a : Int) - (b : Int)).natAbs

/-- The `matches.reduce(...)` of the source: among matches, keep the one
whose index is closest to `t`, ties keeping the earlier accumulator. -/
def closestMatch (t : Nat) (m : Nat × Nat) (rest : List (Nat × Nat)) : Nat × Nat :=
  rest.foldl (fun best cur => if dist cur.1 t < dist best.1 t then cur else best) m

/-- One iteration of the `for (const {pattern, priority, name} of boundaries)`
loop: state is `(bestSplit, bestPriority, bestBoundaryType)`. `Infinity` is
modelled by the initial priority 6 (any value above 5 behaves identically). -/
def stepBoundary (w : List Char) (t wOff : Nat)
    (st : Option Nat × Nat × BoundaryType)
    (b : (List Char → Option Nat) × Nat × BoundaryType) :
    Option Nat × Nat × BoundaryType :=
  match matchAllM b.1 w with
  | [] => st
  | m :: rest =>
    if b.2.1 < st.2.1 then
      let c := closestMatch t m rest
      (some (wOff + c.1 + c.2), b.2.1, b.2.2)
    else st

/-- The boundary-search loop over all five patterns. -/
def findBoundaryState (w : List Char) (t wOff : Nat) : Option Nat × Nat × BoundaryType :=
  boundaries.foldl (stepBoundary w t wOff) (none, 6, .hard)

/-- The `windowSize` constant of `splitIntoChunks`. -/
def windowSize : Nat := 5000

def searchStartAt (pos S : Nat) : Nat := max pos (pos + S - windowSize)

def searchEndAt (text : List Char) (pos S : Nat) : Nat := min (pos + S + windowSize) text.length

def windowAt (text : List Char) (pos S : Nat) : List Char :=
  sliceN text (searchStartAt pos S) (searchEndAt text pos S)

/-- The `(bestSplit, bestPriority, bestBoundaryType)` state computed for the
loop iteration at cursor `pos`; `targetOffset = chunkEnd - windowOffset`. -/
def bestAt (text : List Char) (S pos : Nat) : Option Nat × Nat × BoundaryType :=
  findBoundaryState (windowAt text pos S) (pos + S - searchStartAt pos S) (searchStartAt pos S)

/-- Model of `const actualEnd = bestSplit || chunkEnd`: JS `||` also falls through
on the number 0 (which, as proved below, never occurs). -/
def actualEndAt (text : List Char) (S pos : Nat) : Nat :=
  match (bestAt text S pos).1 with
  | some v => if v = 0 then pos + S else v
  | none => pos + S

def btypeAt (text : List Char) (S pos : Nat) : BoundaryType :=
  (bestAt text S pos).2.2

/-- One entry of `boundaryInfo`: `{ start, end, type, size }`
(`endPos` models the source field `end`). -/
structure BInfo where
  start : Nat
  endPos : Nat
  type : BoundaryType
  size : Nat
deriving DecidableEq, Repr

/-- The `while (position < text.length)` loop of `splitIntoChunks`,
building both the chunk list and `boundaryInfo`. Mirrors the source: the
final-chunk branch, the boundary search, the `bestSplit || chunkEnd`
fallback, and the empty-chunk guard that breaks out of the loop. The
first argument is structural fuel; any fuel at least the remaining
length gives the full loop (proved below), and `chunkLoop` passes
exactly that. -/
def chunkLoopF (text : List Char) (S : Nat) : Nat → Nat → List (List Char) × List BInfo
  | 0, _ => ([], [])
  | fuel + 1, pos =>
    if pos < text.length then
      if text.length ≤ pos + S then
        ([text.drop pos], [⟨pos, text.length, .end_, (text.drop pos).length⟩])
      else
        if (sliceN text pos (actualEndAt text S pos)).length = 0 then ([], [])
        else
          (sliceN text pos (actualEndAt text S pos) ::
             (chunkLoopF text S fuel (actualEndAt text S pos)).1,
           ⟨pos, actualEndAt text S pos, btypeAt text S pos,
            (sliceN text pos (actualEndAt text S pos)).length⟩ ::
             (chunkLoopF text S fuel (actualEndAt text S pos)).2)
    else ([], [])

def chunkLoop (text : List Char) (S : Nat) (pos : Nat) : List (List Char) × List BInfo :=
  chunkLoopF text S (text.length - pos) pos

/-- The function `splitIntoChunks(text, targetChunkSize)`, returning chunks and boundary info. -/
def splitIntoChunks (text : List Char) (S : Nat) : List (List Char) × List BInfo :=
  chunkLoop text S 0

/-- Any fuel at least the remaining length yields the same loop result. -/
lemma chunkLoopF_congr (text : List Char) (S : Nat) :
    ∀ (n m pos : Nat), text.length - pos ≤ n → text.length - pos ≤ m →
      chunkLoopF text S n pos = chunkLoopF text S m pos := by
  intro n
  induction n with
  | zero =>
    intro m pos hn hm
    cases m with
    | zero => rfl
    | succ m =>
      have hnl : ¬ pos < text.length := by omega
      simp [chunkLoopF, hnl]
  | succ n ih =>
    intro m pos hn hm
    cases m with
    | zero =>
      have hnl : ¬ pos < text.length := by omega
      simp [chunkLoopF, hnl]
    | succ m =>
      by_cases hlt : pos < text.length
      · by_cases hfin : text.length ≤ pos + S
        · simp [chunkLoopF, hlt, hfin]
        · by_cases hct : (sliceN text pos (actualEndAt text S pos)).length = 0
          · simp [chunkLoopF, hlt, hfin, hct]
          · have hadv : pos < actualEndAt text S pos := by
              simp only [sliceN, List.length_take, List.length_drop] at hct
              omega
            simp only [chunkLoopF, if_pos hlt, if_neg hfin, if_neg hct]
            rw [ih m (actualEndAt text S pos) (by omega) (by omega)]
      · simp [chunkLoopF, hlt]

lemma chunkLoop_stop (text : List Char) (S pos : Nat) (h : text.length ≤ pos) :
    chunkLoop text S pos = ([], []) := by
  rw [chunkLoop]
  have h0 : text.length - pos = 0 := by omega
  rw [h0, chunkLoopF]

lemma chunkLoop_final (text : List Char) (S pos : Nat) (hlt : pos < text.length)
    (hfin : text.length ≤ pos + S) :
    chunkLoop text S pos =
      ([text.drop pos], [⟨pos, text.length, .end_, (text.drop pos).length⟩]) := by
  rw [chunkLoop]
  obtain ⟨k, hk⟩ : ∃ k, text.length - pos = k + 1 := ⟨text.length - pos - 1, by omega⟩
  rw [hk]
  simp [chunkLoopF, hlt, hfin]

lemma chunkLoop_break (text : List Char) (S pos : Nat) (hlt : pos < text.length)
    (hfin : ¬ text.length ≤ pos + S)
    (hct : (sliceN text pos (actualEndAt text S pos)).length = 0) :
    chunkLoop text S pos = ([], []) := by
  rw [chunkLoop]
  obtain ⟨k, hk⟩ : ∃ k, text.length - pos = k + 1 := ⟨text.length - pos - 1, by omega⟩
  rw [hk]
  simp [chunkLoopF, hlt, hfin, hct]

lemma chunkLoop_cons (text : List Char) (S pos : Nat) (hlt : pos < text.length)
    (hfin : ¬ text.length ≤ pos + S)
    (hct : ¬ (sliceN text pos (actualEndAt text S pos)).length = 0) :
    chunkLoop text S pos =
      (sliceN text pos (actualEndAt text S pos) :: (chunkLoop text S (actualEndAt text S pos)).1,
       ⟨pos, actualEndAt text S pos, btypeAt text S pos,
        (sliceN text pos (actualEndAt text S pos)).length⟩ ::
         (chunkLoop text S (actualEndAt text S pos)).2) := by
  conv_lhs => rw [chunkLoop]
  obtain ⟨k, hk⟩ : ∃ k, text.length - pos = k + 1 := ⟨text.length - pos - 1, by omega⟩
  rw [hk]
  simp only [chunkLoopF, if_pos hlt, if_neg hfin, if_neg hct]
  have hadv : pos < actualEndAt text S pos := by
    simp only [sliceN, List.length_take, List.length_drop] at hct
    omega
  rw [chunkLoopF_congr text S k (text.length - actualEndAt text S pos)
    (actualEndAt text S pos) (by omega) (le_refl _)]
  rfl

/-- The gap-free cover condition on `boundaryInfo`: starting offset `a`,
each entry starts where the previous ended, final entry ends at `b`. -/
def chainFrom : Nat → List BInfo → Nat → Bool
  | a, [], b => a == b
  | a, i :: rest, b => (i.start == a) && chainFrom i.endPos rest b

/-- Soundness of an anchored matcher: a match is nonempty and stays
within the suffix it is anchored at. -/
def MatcherSound (m : List Char → Option Nat) : Prop :=
  ∀ cs L, m cs = some L → 1 ≤ L ∧ L ≤ cs.length

lemma countLeading_le (p : Char → Bool) : ∀ cs : List Char, countLeading p cs ≤ cs.length := by
  intro cs
  induction cs with
  | nil => simp [countLeading]
  | cons c rest ih =>
    simp only [countLeading, List.length_cons]
    split <;> omega

lemma lastIdxNL_lt : ∀ (l : List Char) (j : Nat), lastIdxNL l = some j → j < l.length := by
  intro l
  induction l with
  | nil => simp [lastIdxNL]
  | cons c rest ih =>
    intro j h
    cases hr : lastIdxNL rest with
    | some k =>
      simp only [lastIdxNL, hr, Option.some.injEq] at h
      have := ih k hr
      simp only [List.length_cons]
      omega
    | none =>
      simp only [lastIdxNL, hr] at h
      split at h
      · simp only [Option.some.injEq] at h
        simp only [List.length_cons]
        omega
      · exact absurd h (by simp)

lemma lastIdxNL_mem : ∀ (l : List Char) (j : Nat), lastIdxNL l = some j → '\n' ∈ l := by
  intro l
  induction l with
  | nil => simp [lastIdxNL]
  | cons c rest ih =>
    intro j h
    cases hr : lastIdxNL rest with
    | some k => exact List.mem_cons_of_mem c (ih k hr)
    | none =>
      simp only [lastIdxNL, hr] at h
      split at h
      · rename_i hc
        simp [hc]
      · exact absurd h (by simp)

lemma takeWhile_length_le (p : Char → Bool) : ∀ l : List Char, (l.takeWhile p).length ≤ l.length := by
  intro l
  induction l with
  | nil => simp
  | cons c rest ih =>
    by_cases hc : p c
    · simp only [List.takeWhile_cons, hc, if_true, List.length_cons]
      omega
    · simp [List.takeWhile_cons, hc]

lemma paragraphAt_sound : MatcherSound paragraphAt := by
  intro cs L h
  simp only [paragraphAt] at h
  split at h
  · rename_i hr
    simp only [Option.some.injEq] at h
    have := countLeading_le (fun c => c = '\n') cs
    omega
  · exact absurd h (by simp)

lemma speakerAt_sound : MatcherSound speakerAt := by
  intro cs L h
  simp only [speakerAt] at h
  split at h
  · split at h
    · simp only [Option.some.injEq] at h
      simp only [List.length_cons]
      omega
    · exact absurd h (by simp)
  · exact absurd h (by simp)

lemma timestampAt_sound : MatcherSound timestampAt := by
  intro cs L h
  simp only [timestampAt] at h
  split at h
  · split at h
    · simp only [Option.some.injEq] at h
      simp only [List.length_cons]
      omega
    · exact absurd h (by simp)
  · exact absurd h (by simp)

lemma sentenceAt_sound : MatcherSound sentenceAt := by
  intro cs L h
  simp only [sentenceAt] at h
  split at h
  · rename_i p rest
    split at h
    · cases hj : lastIdxNL (rest.takeWhile isJsSpace) with
      | some j =>
        rw [hj] at h
        simp only [Option.some.injEq] at h
        have h1 := lastIdxNL_lt _ _ hj
        have h2 : (rest.takeWhile isJsSpace).length ≤ rest.length :=
          takeWhile_length_le isJsSpace rest
        simp only [List.length_cons]
        omega
      | none => rw [hj] at h; exact absurd h (by simp)
    · exact absurd h (by simp)
  · exact absurd h (by simp)

lemma lineAt_sound : MatcherSound lineAt := by
  intro cs L h
  simp only [lineAt] at h
  split at h
  · simp only [Option.some.injEq] at h
    simp only [List.length_cons]
    omega
  · exact absurd h (by simp)

/-- Matches produced by the `matchAll` scan lie in `[i, i + cs.length]`,
are nonempty, and their indices are strictly increasing. -/
lemma matchAllGo_props (m : List Char → Option Nat) (hm : MatcherSound m) :
    ∀ (n : Nat) (cs : List Char) (i : Nat), cs.length ≤ n →
      (∀ x ∈ matchAllGo m n cs i, i ≤ x.1 ∧ 1 ≤ x.2 ∧ x.1 + x.2 ≤ i + cs.length) ∧
      List.Pairwise (fun a b : Nat × Nat => a.1 < b.1) (matchAllGo m n cs i) := by
  intro n
  induction n with
  | zero =>
    intro cs i hn
    simp [matchAllGo]
  | succ n ih =>
    intro cs i hn
    cases cs with
    | nil => simp [matchAllGo]
    | cons c rest =>
      simp only [matchAllGo]
      cases h : m (c :: rest) with
      | none =>
        have hlen : rest.length ≤ n := by
          simp only [List.length_cons] at hn; omega
        have := ih rest (i + 1) hlen
        refine ⟨fun x hx => ?_, this.2⟩
        have hx' := this.1 x hx
        simp only [List.length_cons]
        omega
      | some L =>
        obtain ⟨hL1, hL2⟩ := hm _ _ h
        simp only [List.length_cons] at hL2 hn
        have hlen : (rest.drop (L - 1)).length ≤ n := by
          simp only [List.length_drop]; omega
        have hrec := ih (rest.drop (L - 1)) (i + L) hlen
        have hdroplen : (rest.drop (L - 1)).length = rest.length - (L - 1) :=
          List.length_drop _ _
        constructor
        · intro x hx
          rcases List.mem_cons.mp hx with hx | hx
          · subst hx
            simp only [List.length_cons]
            omega
          · have := hrec.1 x hx
            simp only [List.length_cons]
            omega
        · refine List.Pairwise.cons (fun x hx => ?_) hrec.2
          have := hrec.1 x hx
          omega

lemma matchAllM_bounds (m : List Char → Option Nat) (hm : MatcherSound m) (w : List Char) :
    ∀ x ∈ matchAllM m w, 1 ≤ x.2 ∧ x.1 + x.2 ≤ w.length := by
  intro x hx
  have := (matchAllGo_props m hm w.length w 0 le_rfl).1 x hx
  omega

lemma matchAllM_sorted (m : List Char → Option Nat) (hm : MatcherSound m) (w : List Char) :
    List.Pairwise (fun a b : Nat × Nat => a.1 < b.1) (matchAllM m w) :=
  (matchAllGo_props m hm w.length w 0 le_rfl).2

/-- The reduce over matches picks an element of the list, of minimal
distance to the target, and on equal distance the one with the smallest
index (given the indices are strictly increasing, as `matchAll` yields). -/
lemma closestMatch_props (t : Nat) :
    ∀ (rest : List (Nat × Nat)) (m : Nat × Nat),
      List.Pairwise (fun a b : Nat × Nat => a.1 < b.1) (m :: rest) →
      closestMatch t m rest ∈ m :: rest ∧
      (∀ x ∈ m :: rest, dist (closestMatch t m rest).1 t ≤ dist x.1 t) ∧
      (∀ x ∈ m :: rest, dist x.1 t = dist (closestMatch t m rest).1 t →
        (closestMatch t m rest).1 ≤ x.1) := by
  intro rest
  induction rest with
  | nil =>
    intro m _
    refine ⟨by simp [closestMatch], ?_, ?_⟩ <;> intro x hx <;>
      simp only [List.mem_singleton] at hx <;> subst hx <;> simp [closestMatch]
  | cons y rest ih =>
    intro m hp
    have hstep : closestMatch t m (y :: rest) =
        closestMatch t (if dist y.1 t < dist m.1 t then y else m) rest := by
      simp [closestMatch, List.foldl_cons]
    have hmy : m.1 < y.1 := (List.pairwise_cons.mp hp).1 y (by simp)
    have hp2 : List.Pairwise (fun a b : Nat × Nat => a.1 < b.1)
        ((if dist y.1 t < dist m.1 t then y else m) :: rest) := by
      rcases List.pairwise_cons.mp hp with ⟨hm, hyp⟩
      rcases List.pairwise_cons.mp hyp with ⟨hy, hrest⟩
      split
      · exact List.pairwise_cons.mpr ⟨hy, hrest⟩
      · exact List.pairwise_cons.mpr ⟨fun b hb => hm b (List.mem_cons_of_mem y hb), hrest⟩
    obtain ⟨hmem, hmin, htie⟩ := ih (if dist y.1 t < dist m.1 t then y else m) hp2
    rw [hstep]
    by_cases hd : dist y.1 t < dist m.1 t
    · simp only [hd, if_true] at hmem hmin htie ⊢
      refine ⟨?_, ?_, ?_⟩
      · rcases List.mem_cons.mp hmem with hc | hc
        · exact List.mem_cons_of_mem m (by simp [hc])
        · exact List.mem_cons_of_mem m (List.mem_cons_of_mem y hc)
      · intro z hz
        rcases List.mem_cons.mp hz with hc | hc
        · rw [hc]
          have := hmin y (by simp)
          omega
        · exact hmin z hc
      · intro z hz hzd
        rcases List.mem_cons.mp hz with hc | hc
        · rw [hc] at hzd
          have := hmin y (by simp)
          omega
        · exact htie z hc hzd
    · simp only [hd, if_false] at hmem hmin htie ⊢
      refine ⟨?_, ?_, ?_⟩
      · rcases List.mem_cons.mp hmem with hc | hc
        · simp [hc]
        · exact List.mem_cons_of_mem m (List.mem_cons_of_mem y hc)
      · intro z hz
        rcases List.mem_cons.mp hz with hc | hc
        · rw [hc]
          exact hmin m (by simp)
        · rcases List.mem_cons.mp hc with hc2 | hc2
          · rw [hc2]
            have := hmin m (by simp)
            omega
          · exact hmin z (List.mem_cons_of_mem _ hc2)
      · intro z hz hzd
        rcases List.mem_cons.mp hz with hc | hc
        · rw [hc] at hzd ⊢
          exact htie m (by simp) hzd
        · rcases List.mem_cons.mp hc with hc2 | hc2
          · rw [hc2] at hzd ⊢
            rcases List.mem_cons.mp hmem with hc3 | hc3
            · rw [hc3]
              omega
            · have h1 := hmin m (by simp)
              have h2 := htie m (by simp) (by omega)
              omega
          · exact htie z (List.mem_cons_of_mem _ hc2) hzd

/-- One step of the boundary loop preserves the bounds invariant on `bestSplit`. -/
lemma stepBoundary_inv (w : List Char) (t wOff : Nat)
    (st : Option Nat × Nat × BoundaryType)
    (b : (List Char → Option Nat) × Nat × BoundaryType) (hb : MatcherSound b.1)
    (hst : ∀ v, st.1 = some v → wOff + 1 ≤ v ∧ v ≤ wOff + w.length) :
    ∀ v, (stepBoundary w t wOff st b).1 = some v → wOff + 1 ≤ v ∧ v ≤ wOff + w.length := by
  intro v hv
  cases hms : matchAllM b.1 w with
  | nil =>
    simp only [stepBoundary, hms] at hv
    exact hst v hv
  | cons m rest =>
    simp only [stepBoundary, hms] at hv
    split at hv
    · simp only [Option.some.injEq] at hv
      have hsorted := matchAllM_sorted b.1 hb w
      rw [hms] at hsorted
      have hmem := (closestMatch_props t rest m hsorted).1
      have hbounds := matchAllM_bounds b.1 hb w (closestMatch t m rest) (by rw [hms]; exact hmem)
      omega
    · exact hst v hv

lemma findBoundaryState_bounds (w : List Char) (t wOff : Nat) :
    ∀ v, (findBoundaryState w t wOff).1 = some v → wOff + 1 ≤ v ∧ v ≤ wOff + w.length := by
  rw [findBoundaryState, boundaries]
  simp only [List.foldl_cons, List.foldl_nil]
  refine stepBoundary_inv w t wOff _ _ lineAt_sound ?_
  refine stepBoundary_inv w t wOff _ _ sentenceAt_sound ?_
  refine stepBoundary_inv w t wOff _ _ timestampAt_sound ?_
  refine stepBoundary_inv w t wOff _ _ speakerAt_sound ?_
  refine stepBoundary_inv w t wOff _ _ paragraphAt_sound ?_
  intro v hv
  simp at hv

lemma windowAt_length (text : List Char) (pos S : Nat) (h : pos + S < text.length) :
    (windowAt text pos S).length = searchEndAt text pos S - searchStartAt pos S := by
  rw [windowAt, sliceN]
  simp only [List.length_take, List.length_drop]
  rw [searchEndAt, searchStartAt, windowSize]
  omega

/-- Bounds on the cut point of one non-final loop iteration: it strictly
advances the cursor, stays within the document, and lands within
`windowSize` of the target `pos + S`. -/
lemma actualEndAt_bounds (text : List Char) (S pos : Nat) (hS : 1 ≤ S)
    (h : pos + S < text.length) :
    pos < actualEndAt text S pos ∧ actualEndAt text S pos ≤ text.length ∧
    max 1 (S - 4999) ≤ actualEndAt text S pos - pos ∧
    actualEndAt text S pos - pos ≤ S + 5000 := by
  have hwlen := windowAt_length text pos S h
  have hss : searchStartAt pos S = max pos (pos + S - 5000) := by
    rw [searchStartAt, windowSize]
  have hse : searchEndAt text pos S = min (pos + S + 5000) text.length := by
    rw [searchEndAt, windowSize]
  cases hb : (bestAt text S pos).1 with
  | none =>
    have hae : actualEndAt text S pos = pos + S := by rw [actualEndAt, hb]
    rw [hae]
    omega
  | some v =>
    have hv := findBoundaryState_bounds (windowAt text pos S)
      (pos + S - searchStartAt pos S) (searchStartAt pos S) v (by rw [← bestAt]; exact hb)
    have hvpos : ¬(v = 0) := by omega
    have hae : actualEndAt text S pos = v := by
      rw [actualEndAt, hb]
      simp only [hvpos, if_false]
    rw [hae]
    omega

/-- Unfolding of a non-final, non-degenerate loop iteration. -/
lemma chunkLoop_step (text : List Char) (S pos : Nat) (hS : 1 ≤ S)
    (h : pos + S < text.length) :
    chunkLoop text S pos =
      (sliceN text pos (actualEndAt text S pos) :: (chunkLoop text S (actualEndAt text S pos)).1,
       ⟨pos, actualEndAt text S pos, btypeAt text S pos,
        (sliceN text pos (actualEndAt text S pos)).length⟩ ::
         (chunkLoop text S (actualEndAt text S pos)).2) := by
  obtain ⟨h1, h2, h3, h4⟩ := actualEndAt_bounds text S pos hS h
  have hlt : pos < text.length := by omega
  have hfin : ¬ text.length ≤ pos + S := by omega
  have hct : ¬ (sliceN text pos (actualEndAt text S pos)).length = 0 := by
    simp only [sliceN, List.length_take, List.length_drop]
    omega
  exact chunkLoop_cons text S pos hlt hfin hct

/-- Lossless partition and gap-free offset cover, by induction on the
remaining length. -/
lemma chunkLoop_main (text : List Char) (S : Nat) (hS : 1 ≤ S) :
    ∀ (n pos : Nat), text.length - pos ≤ n → pos ≤ text.length →
      (chunkLoop text S pos).1.flatten = text.drop pos ∧
      chainFrom pos (chunkLoop text S pos).2 text.length = true := by
  intro n
  induction n with
  | zero =>
    intro pos hn hle
    have hpos : pos = text.length := by omega
    have hnl : ¬ pos < text.length := by omega
    rw [chunkLoop_stop text S pos (by omega)]
    subst hpos
    simp [chainFrom, List.drop_length]
  | succ n ih =>
    intro pos hn hle
    by_cases hlt : pos < text.length
    · by_cases hfin : text.length ≤ pos + S
      · rw [chunkLoop_final text S pos hlt hfin]
        simp [chainFrom]
      · push_neg at hfin
        obtain ⟨h1, h2, h3, h4⟩ := actualEndAt_bounds text S pos hS hfin
        rw [chunkLoop_step text S pos hS hfin]
        obtain ⟨ihj, ihc⟩ := ih (actualEndAt text S pos) (by omega) (by omega)
        constructor
        · simp only [List.flatten_cons, ihj, sliceN]
          have hdd : text.drop (actualEndAt text S pos) =
              (text.drop pos).drop (actualEndAt text S pos - pos) := by
            rw [List.drop_drop]
            congr 1
            omega
          rw [hdd]
          exact List.take_append_drop _ _
        · simp only [chainFrom, ihc, Bool.and_true, beq_self_eq_true]
    · rw [chunkLoop_stop text S pos (by omega)]
      have hpos : pos = text.length := by omega
      subst hpos
      simp [chainFrom, List.drop_length]

/-- The splitter never emits an empty chunk, for every target size
(including 0, where the empty-chunk guard stops the loop instead). -/
lemma chunkLoop_nonempty (text : List Char) (S : Nat) :
    ∀ (n pos : Nat), text.length - pos ≤ n →
      ∀ c ∈ (chunkLoop text S pos).1, c ≠ [] := by
  intro n
  induction n with
  | zero =>
    intro pos hn c hc
    have hnl : ¬ pos < text.length ∨ pos < text.length := by omega
    rcases hnl with hnl | hl
    · rw [chunkLoop_stop text S pos (by omega)] at hc
      simp at hc
    · have hfin : text.length ≤ pos + S := by omega
      rw [chunkLoop_final text S pos hl hfin] at hc
      simp only [List.mem_singleton] at hc
      subst hc
      have : (text.drop pos).length = text.length - pos := List.length_drop _ _
      intro hnil
      rw [hnil] at this
      simp at this
      omega
  | succ n ih =>
    intro pos hn c hc
    by_cases hlt : pos < text.length
    · by_cases hfin : text.length ≤ pos + S
      · rw [chunkLoop_final text S pos hlt hfin] at hc
        simp only [List.mem_singleton] at hc
        subst hc
        have : (text.drop pos).length = text.length - pos := List.length_drop _ _
        intro hnil
        rw [hnil] at this
        simp at this
        omega
      · push_neg at hfin
        by_cases hct : (sliceN text pos (actualEndAt text S pos)).length = 0
        · rw [chunkLoop_break text S pos hlt (by omega) hct] at hc
          simp at hc
        · rw [chunkLoop_cons text S pos hlt (by omega) hct] at hc
          rcases List.mem_cons.mp hc with hcc | hcc
          · subst hcc
            intro hnil
            rw [hnil] at hct
            simp at hct
          · have hdec : text.length - actualEndAt text S pos ≤ n := by
              simp only [sliceN, List.length_take, List.length_drop] at hct
              omega
            exact ih (actualEndAt text S pos) hdec c hcc
    · rw [chunkLoop_stop text S pos (by omega)] at hc
      simp at hc

/-- Size bounds on the chunks: every chunk fits within `S + 5000`, and
every chunk but the last has length at least `max 1 (S - 4999)`. -/
lemma chunkLoop_size_bounds (text : List Char) (S : Nat) (hS : 1 ≤ S) :
    ∀ (n pos : Nat), text.length - pos ≤ n →
      ∀ i, i < (chunkLoop text S pos).1.length →
        ((chunkLoop text S pos).1.getD i []).length ≤ S + 5000 ∧
        (i + 1 < (chunkLoop text S pos).1.length →
          max 1 (S - 4999) ≤ ((chunkLoop text S pos).1.getD i []).length) := by
  intro n
  induction n with
  | zero =>
    intro pos hn i hi
    by_cases hlt : pos < text.length
    · have hfin : text.length ≤ pos + S := by omega
      rw [chunkLoop_final text S pos hlt hfin] at hi ⊢
      simp only [List.length_singleton] at hi
      interval_cases i
      constructor
      · simp only [List.getD, List.get?, List.length_drop]
        simp [List.length_drop]
        omega
      · intro hcon
        simp at hcon
    · rw [chunkLoop_stop text S pos (by omega)] at hi
      simp at hi
  | succ n ih =>
    intro pos hn i hi
    by_cases hlt : pos < text.length
    · by_cases hfin : text.length ≤ pos + S
      · rw [chunkLoop_final text S pos hlt hfin] at hi ⊢
        simp only [List.length_singleton] at hi
        interval_cases i
        constructor
        · simp [List.length_drop]
          omega
        · intro hcon
          simp at hcon
      · push_neg at hfin
        obtain ⟨h1, h2, h3, h4⟩ := actualEndAt_bounds text S pos hS hfin
        rw [chunkLoop_step text S pos hS hfin] at hi ⊢
        have hctlen : (sliceN text pos (actualEndAt text S pos)).length =
            actualEndAt text S pos - pos := by
          simp only [sliceN, List.length_take, List.length_drop]
          omega
        cases i with
        | zero =>
          simp only [List.getD_cons_zero]
          constructor
          · omega
          · intro hlen
            omega
        | succ j =>
          simp only [List.getD_cons_succ, List.length_cons] at hi ⊢
          have := ih (actualEndAt text S pos) (by omega) j (by omega)
          exact ⟨this.1, fun hj => this.2 (by omega)⟩
    · rw [chunkLoop_stop text S pos (by omega)] at hi
      simp at hi

/-- Every recorded boundary strictly advances the cursor. -/
lemma chunkLoop_starts_lt (text : List Char) (S : Nat) (hS : 1 ≤ S) :
    ∀ (n pos : Nat), text.length - pos ≤ n →
      ∀ b ∈ (chunkLoop text S pos).2, b.start < b.endPos := by
  intro n
  induction n with
  | zero =>
    intro pos hn b hb
    by_cases hlt : pos < text.length
    · have hfin : text.length ≤ pos + S := by omega
      rw [chunkLoop_final text S pos hlt hfin] at hb
      simp only [List.mem_singleton] at hb
      subst hb
      simpa using hlt
    · rw [chunkLoop_stop text S pos (by omega)] at hb
      simp at hb
  | succ n ih =>
    intro pos hn b hb
    by_cases hlt : pos < text.length
    · by_cases hfin : text.length ≤ pos + S
      · rw [chunkLoop_final text S pos hlt hfin] at hb
        simp only [List.mem_singleton] at hb
        subst hb
        simpa using hlt
      · push_neg at hfin
        obtain ⟨h1, h2, h3, h4⟩ := actualEndAt_bounds text S pos hS hfin
        rw [chunkLoop_step text S pos hS hfin] at hb
        rcases List.mem_cons.mp hb with hbc | hbc
        · subst hbc
          simpa using h1
        · have hdec : text.length - actualEndAt text S pos ≤ n := by omega
          exact ih (actualEndAt text S pos) hdec b hbc
    · rw [chunkLoop_stop text S pos (by omega)] at hb
      simp at hb

end ConvAgent

namespace ConvAgent

/-- C1. Lossless partition: for every document and every target chunk size
`S ≥ 1`, the chunks of `splitIntoChunks` concatenate, in order, to exactly
the document, and the recorded `boundaryInfo` offsets form a gap-free
cover starting at 0, each entry ending where the next starts, and the
last entry ending at the document length. -/
theorem splitIntoChunks_lossless_partition (text : List Char) (S : Nat) (hS : 1 ≤ S) :
    (splitIntoChunks text S).1.flatten = text ∧
    chainFrom 0 (splitIntoChunks text S).2 text.length = true := by
  have h := chunkLoop_main text S hS text.length 0 (by omega) (by omega)
  rw [splitIntoChunks]
  simpa using h

/-- Witness for C1 at a concrete document and size. -/
theorem splitIntoChunks_lossless_partition_witness :
    (1 ≤ 3 ∧
      ((splitIntoChunks ("ab\ncd").data 3).1.flatten = ("ab\ncd").data ∧
       chainFrom 0 (splitIntoChunks ("ab\ncd").data 3).2 ("ab\ncd").data.length = true)) :=
  ⟨by decide, splitIntoChunks_lossless_partition ("ab\ncd").data 3 (by decide)⟩

/-- C10. Implicit chunk-size bound: with `S ≥ 1`, every chunk has length
at most `S + 5000` (the search-window radius), every chunk except the
final one has length at least `max 1 (S - 4999)`, and every recorded
boundary strictly advances the cursor (so the split terminates). -/
theorem splitIntoChunks_size_bounds (text : List Char) (S : Nat) (hS : 1 ≤ S) :
    (∀ i, i < (splitIntoChunks text S).1.length →
      (((splitIntoChunks text S).1.getD i []).length ≤ S + 5000 ∧
       (i + 1 < (splitIntoChunks text S).1.length →
         max 1 (S - 4999) ≤ ((splitIntoChunks text S).1.getD i []).length))) ∧
    (∀ b ∈ (splitIntoChunks text S).2, b.start < b.endPos) := by
  constructor
  · intro i hi
    exact chunkLoop_size_bounds text S hS text.length 0 (by omega) i hi
  · intro b hb
    exact chunkLoop_starts_lt text S hS text.length 0 (by omega) b hb

/-- Witness for C10 at a concrete document and size. -/
theorem splitIntoChunks_size_bounds_witness :
    (1 ≤ 2 ∧ 0 < (splitIntoChunks ("abcde").data 2).1.length ∧
      ((splitIntoChunks ("abcde").data 2).1.getD 0 []).length ≤ 2 + 5000) :=
  ⟨by decide, by decide,
    ((splitIntoChunks_size_bounds ("abcde").data 2 (by decide)).1 0 (by decide)).1⟩

/-- No boundary pattern has any match in the window. -/
def noWindowMatch (w : List Char) : Prop :=
  matchAllM paragraphAt w = [] ∧ matchAllM speakerAt w = [] ∧
  matchAllM timestampAt w = [] ∧ matchAllM sentenceAt w = [] ∧ matchAllM lineAt w = []

lemma mem_of_mem_takeWhile (p : Char → Bool) :
    ∀ (l : List Char) (c : Char), c ∈ l.takeWhile p → c ∈ l := by
  intro l
  induction l with
  | nil => simp
  | cons a rest ih =>
    intro c hc
    by_cases ha : p a
    · rw [List.takeWhile_cons, if_pos ha] at hc
      rcases List.mem_cons.mp hc with hc | hc
      · simp [hc]
      · exact List.mem_cons_of_mem a (ih c hc)
    · rw [List.takeWhile_cons, if_neg ha] at hc
      simp at hc

lemma paragraphAt_mem (cs : List Char) (L : Nat) (h : paragraphAt cs = some L) : '\n' ∈ cs := by
  rw [paragraphAt] at h
  split at h
  · rename_i hr
    cases cs with
    | nil => simp [countLeading] at hr
    | cons c rest =>
      by_cases hc : c = '\n'
      · simp [hc]
      · simp [countLeading, hc] at hr
  · exact absurd h (by simp)

lemma speakerAt_mem (cs : List Char) (L : Nat) (h : speakerAt cs = some L) : '\n' ∈ cs := by
  simp only [speakerAt] at h
  split at h
  · simp
  · exact absurd h (by simp)

lemma timestampAt_mem (cs : List Char) (L : Nat) (h : timestampAt cs = some L) : '\n' ∈ cs := by
  simp only [timestampAt] at h
  split at h
  · simp
  · exact absurd h (by simp)

lemma sentenceAt_mem (cs : List Char) (L : Nat) (h : sentenceAt cs = some L) : '\n' ∈ cs := by
  simp only [sentenceAt] at h
  split at h
  · rename_i p rest
    split at h
    · cases hj : lastIdxNL (rest.takeWhile isJsSpace) with
      | some j =>
        have := lastIdxNL_mem _ j hj
        exact List.mem_cons_of_mem p (mem_of_mem_takeWhile isJsSpace rest '\n' this)
      | none => rw [hj] at h; exact absurd h (by simp)
    · exact absurd h (by simp)
  · exact absurd h (by simp)

lemma lineAt_mem (cs : List Char) (L : Nat) (h : lineAt cs = some L) : '\n' ∈ cs := by
  simp only [lineAt] at h
  split at h
  · simp
  · exact absurd h (by simp)

lemma matchAllGo_noNL (m : List Char → Option Nat)
    (hmem : ∀ cs L, m cs = some L → '\n' ∈ cs) :
    ∀ (n : Nat) (cs : List Char) (i : Nat), '\n' ∉ cs → matchAllGo m n cs i = [] := by
  intro n
  induction n with
  | zero => intro cs i _; rw [matchAllGo]
  | succ n ih =>
    intro cs i hcs
    cases cs with
    | nil => rw [matchAllGo]
    | cons c rest =>
      rw [matchAllGo]
      cases h : m (c :: rest) with
      | some L => exact absurd (hmem _ _ h) hcs
      | none =>
        exact ih rest (i + 1) (fun hr => hcs (List.mem_cons_of_mem c hr))

/-- A window containing no newline has no boundary match at all. -/
lemma noWindowMatch_of_noNL (w : List Char) (h : '\n' ∉ w) : noWindowMatch w := by
  refine ⟨?_, ?_, ?_, ?_, ?_⟩ <;> rw [matchAllM]
  · exact matchAllGo_noNL paragraphAt paragraphAt_mem w.length w 0 h
  · exact matchAllGo_noNL speakerAt speakerAt_mem w.length w 0 h
  · exact matchAllGo_noNL timestampAt timestampAt_mem w.length w 0 h
  · exact matchAllGo_noNL sentenceAt sentenceAt_mem w.length w 0 h
  · exact matchAllGo_noNL lineAt lineAt_mem w.length w 0 h

/-- With no match at any priority level, the boundary loop leaves its
initial state: no split, priority `Infinity`, type `hard`. -/
lemma findBoundaryState_nomatch (w : List Char) (t wOff : Nat) (h : noWindowMatch w) :
    findBoundaryState w t wOff = (none, 6, .hard) := by
  obtain ⟨h1, h2, h3, h4, h5⟩ := h
  rw [findBoundaryState, boundaries]
  simp only [List.foldl_cons, List.foldl_nil, stepBoundary, h1, h2, h3, h4, h5]

/-- A non-final iteration with no boundary match cuts exactly at
`pos + S` with boundary type `hard`. -/
lemma chunkLoop_hard (text : List Char) (S pos : Nat) (hS : 1 ≤ S)
    (h : pos + S < text.length) (hnm : noWindowMatch (windowAt text pos S)) :
    chunkLoop text S pos =
      (sliceN text pos (pos + S) :: (chunkLoop text S (pos + S)).1,
       ⟨pos, pos + S, .hard, S⟩ :: (chunkLoop text S (pos + S)).2) := by
  have hbest : bestAt text S pos = (none, 6, .hard) := by
    rw [bestAt]
    exact findBoundaryState_nomatch _ _ _ hnm
  have hae : actualEndAt text S pos = pos + S := by rw [actualEndAt, hbest]
  have hbt : btypeAt text S pos = .hard := by rw [btypeAt, hbest]
  have hsz : (sliceN text pos (pos + S)).length = S := by
    simp only [sliceN, List.length_take, List.length_drop]
    omega
  have hct : ¬ (sliceN text pos (actualEndAt text S pos)).length = 0 := by
    rw [hae, hsz]
    omega
  rw [chunkLoop_cons text S pos (by omega) (by omega) hct, hae, hbt, hsz]

lemma replicate_noNL (n : Nat) : '\n' ∉ List.replicate n 'a' := by
  intro h
  have := List.eq_of_mem_replicate h
  simp at this

lemma windowAt_noNL (text : List Char) (pos S : Nat) (h : '\n' ∉ text) :
    '\n' ∉ windowAt text pos S := by
  intro hw
  rw [windowAt, sliceN] at hw
  exact h (List.drop_subset _ _ (List.take_subset _ _ hw))

/-- The spec scenario: 250,000 characters with no natural boundaries,
target 100,000, yields chunks of sizes 100,000 / 100,000 / 50,000 with
types hard / hard / end. -/
lemma scenario_250k :
    (splitIntoChunks (List.replicate 250000 'a') 100000).2.map (fun b => (b.size, b.type)) =
      [(100000, .hard), (100000, .hard), (50000, .end_)] ∧
    (splitIntoChunks (List.replicate 250000 'a') 100000).1.map List.length =
      [100000, 100000, 50000] := by
  have hlen : (List.replicate 250000 'a').length = 250000 := List.length_replicate _ _
  have hnl : '\n' ∉ List.replicate 250000 'a' := replicate_noNL 250000
  have h0 := chunkLoop_hard (List.replicate 250000 'a') 100000 0 (by omega) (by omega)
    (noWindowMatch_of_noNL _ (windowAt_noNL _ 0 100000 hnl))
  have h1 := chunkLoop_hard (List.replicate 250000 'a') 100000 100000 (by omega) (by omega)
    (noWindowMatch_of_noNL _ (windowAt_noNL _ 100000 100000 hnl))
  have h2 := chunkLoop_final (List.replicate 250000 'a') 100000 200000 (by omega) (by omega)
  rw [splitIntoChunks]
  simp only [Nat.zero_add] at h0 h1
  rw [h0, h1, h2]
  have hs0 : (sliceN (List.replicate 250000 'a') 0 100000).length = 100000 := by
    rw [sliceN, List.length_take, List.length_drop, hlen]
    omega
  have hs1 : (sliceN (List.replicate 250000 'a') 100000 200000).length = 100000 := by
    rw [sliceN, List.length_take, List.length_drop, hlen]
    omega
  have hs2 : ((List.replicate 250000 'a').drop 200000).length = 50000 := by
    rw [List.length_drop, hlen]
  refine ⟨?_, ?_⟩
  · simp only [List.map_cons, List.map_nil, hs2]
  · simp only [List.map_cons, List.map_nil, hs0, hs1, hs2]

/-- C3. Splitter step behaviour: a step with `cursor + S ≥ len` emits one
final chunk `[cursor, len)` with type `end` and stops; a step where no
boundary pattern matches in the window cuts at exactly `cursor + S` with
type `hard`; and the 250,000-character no-boundary document with target
100,000 yields exactly 3 chunks, hard/hard/end, sizes 100,000 + 100,000
+ 50,000 = 250,000. -/
theorem splitIntoChunks_step_behavior :
    (∀ (text : List Char) (S pos : Nat), pos < text.length → text.length ≤ pos + S →
      chunkLoop text S pos =
        ([text.drop pos], [⟨pos, text.length, .end_, (text.drop pos).length⟩])) ∧
    (∀ (text : List Char) (S pos : Nat), 1 ≤ S → pos + S < text.length →
      noWindowMatch (windowAt text pos S) →
      chunkLoop text S pos =
        (sliceN text pos (pos + S) :: (chunkLoop text S (pos + S)).1,
         ⟨pos, pos + S, .hard, S⟩ :: (chunkLoop text S (pos + S)).2)) ∧
    ((splitIntoChunks (List.replicate 250000 'a') 100000).2.map (fun b => (b.size, b.type)) =
       [(100000, .hard), (100000, .hard), (50000, .end_)] ∧
     (splitIntoChunks (List.replicate 250000 'a') 100000).1.map List.length =
       [100000, 100000, 50000]) :=
  ⟨fun text S pos hlt hfin => chunkLoop_final text S pos hlt hfin,
   fun text S pos hS h hnm => chunkLoop_hard text S pos hS h hnm,
   scenario_250k⟩

/-- Witness for C3's two conditional parts at concrete inputs. -/
theorem splitIntoChunks_step_behavior_witness :
    (0 < ("abc").data.length ∧ ("abc").data.length ≤ 0 + 5 ∧
      chunkLoop ("abc").data 5 0 =
        ([("abc").data.drop 0],
         [⟨0, ("abc").data.length, .end_, (("abc").data.drop 0).length⟩])) ∧
    (1 ≤ 3 ∧ 0 + 3 < ("abcdefgh").data.length ∧
      matchAllM lineAt (windowAt ("abcdefgh").data 0 3) = [] ∧
      chunkLoop ("abcdefgh").data 3 0 =
        (sliceN ("abcdefgh").data 0 (0 + 3) :: (chunkLoop ("abcdefgh").data 3 (0 + 3)).1,
         ⟨0, 0 + 3, .hard, 3⟩ :: (chunkLoop ("abcdefgh").data 3 (0 + 3)).2)) :=
  ⟨⟨by decide, by decide,
    splitIntoChunks_step_behavior.1 ("abc").data 5 0 (by decide) (by decide)⟩,
   by decide, by decide, by decide,
   splitIntoChunks_step_behavior.2.1 ("abcdefgh").data 3 0 (by decide) (by decide)
     (by rw [noWindowMatch]; decide)⟩

/-- The declarative description of a winning priority level: the final
state's cut is placed after the matched delimiter (`index + length`) of
a match of this level that is closest to the target offset, ties going
to the earliest occurrence, and the state's type is this level's name. -/
def wins (w : List Char) (t wOff : Nat) (ms : List (Nat × Nat)) (bt : BoundaryType) : Prop :=
  ∃ m ∈ ms,
    (findBoundaryState w t wOff).1 = some (wOff + m.1 + m.2) ∧
    (findBoundaryState w t wOff).2.2 = bt ∧
    (∀ m2 ∈ ms, dist m.1 t ≤ dist m2.1 t) ∧
    (∀ m2 ∈ ms, dist m2.1 t = dist m.1 t → m.1 ≤ m2.1)

lemma stepBoundary_skip (w : List Char) (t wOff : Nat)
    (st : Option Nat × Nat × BoundaryType) (matcher : List Char → Option Nat)
    (p : Nat) (bt : BoundaryType) (h : matchAllM matcher w = []) :
    stepBoundary w t wOff st (matcher, p, bt) = st := by
  simp [stepBoundary, h]

lemma stepBoundary_stay (w : List Char) (t wOff : Nat)
    (st : Option Nat × Nat × BoundaryType) (matcher : List Char → Option Nat)
    (p : Nat) (bt : BoundaryType) (h : ¬ p < st.2.1) :
    stepBoundary w t wOff st (matcher, p, bt) = st := by
  cases hms : matchAllM matcher w with
  | nil => simp [stepBoundary, hms]
  | cons m rest => simp [stepBoundary, hms, h]

lemma stepBoundary_win (w : List Char) (t wOff : Nat)
    (st : Option Nat × Nat × BoundaryType) (matcher : List Char → Option Nat)
    (p : Nat) (bt : BoundaryType) (m : Nat × Nat) (rest : List (Nat × Nat))
    (hms : matchAllM matcher w = m :: rest) (h : p < st.2.1) :
    stepBoundary w t wOff st (matcher, p, bt) =
      (some (wOff + (closestMatch t m rest).1 + (closestMatch t m rest).2), p, bt) := by
  simp [stepBoundary, hms, h]

lemma wins_mk (w : List Char) (t wOff : Nat) (matcher : List Char → Option Nat)
    (hsound : MatcherSound matcher) (bt : BoundaryType) (m : Nat × Nat)
    (rest : List (Nat × Nat)) (hms : matchAllM matcher w = m :: rest)
    (h1 : (findBoundaryState w t wOff).1 =
      some (wOff + (closestMatch t m rest).1 + (closestMatch t m rest).2))
    (h2 : (findBoundaryState w t wOff).2.2 = bt) :
    wins w t wOff (matchAllM matcher w) bt := by
  have hsorted := matchAllM_sorted matcher hsound w
  rw [hms] at hsorted
  obtain ⟨hmem, hmin, htie⟩ := closestMatch_props t rest m hsorted
  rw [wins, hms]
  exact ⟨closestMatch t m rest, hmem, h1, h2, hmin, htie⟩

/-- C2. Boundary selection order: the five patterns are consulted in the
strict priority order paragraph > speaker > timestamp > sentence > line;
the first level with at least one match in the window wins and is never
overridden by a lower level; among the winning level's matches the one
closest to the target offset is chosen, ties to the earliest occurrence;
and the resulting cut is placed right after the matched delimiter. With
no match at all, the state stays `(none, Infinity, hard)`. -/
theorem findBoundary_priority_selection (w : List Char) (t wOff : Nat) :
    ((matchAllM paragraphAt w = [] ∧ matchAllM speakerAt w = [] ∧
      matchAllM timestampAt w = [] ∧ matchAllM sentenceAt w = [] ∧
      matchAllM lineAt w = []) → findBoundaryState w t wOff = (none, 6, .hard)) ∧
    (matchAllM paragraphAt w ≠ [] →
      wins w t wOff (matchAllM paragraphAt w) .paragraph) ∧
    (matchAllM paragraphAt w = [] → matchAllM speakerAt w ≠ [] →
      wins w t wOff (matchAllM speakerAt w) .speaker) ∧
    (matchAllM paragraphAt w = [] → matchAllM speakerAt w = [] →
      matchAllM timestampAt w ≠ [] →
      wins w t wOff (matchAllM timestampAt w) .timestamp) ∧
    (matchAllM paragraphAt w = [] → matchAllM speakerAt w = [] →
      matchAllM timestampAt w = [] → matchAllM sentenceAt w ≠ [] →
      wins w t wOff (matchAllM sentenceAt w) .sentence) ∧
    (matchAllM paragraphAt w = [] → matchAllM speakerAt w = [] →
      matchAllM timestampAt w = [] → matchAllM sentenceAt w = [] →
      matchAllM lineAt w ≠ [] →
      wins w t wOff (matchAllM lineAt w) .line) := by
  refine ⟨?_, ?_, ?_, ?_, ?_, ?_⟩
  · intro h
    exact findBoundaryState_nomatch w t wOff h
  · intro h1
    obtain ⟨m, rest, hms⟩ := List.exists_cons_of_ne_nil h1
    have hfb : findBoundaryState w t wOff =
        (some (wOff + (closestMatch t m rest).1 + (closestMatch t m rest).2), 1, .paragraph) := by
      rw [findBoundaryState, boundaries]
      simp only [List.foldl_cons, List.foldl_nil]
      rw [stepBoundary_win w t wOff _ paragraphAt 1 .paragraph m rest hms (by decide),
        stepBoundary_stay w t wOff (some (wOff + (closestMatch t m rest).1 + (closestMatch t m rest).2), 1, .paragraph) speakerAt 2 .speaker (by simp),
        stepBoundary_stay w t wOff (some (wOff + (closestMatch t m rest).1 + (closestMatch t m rest).2), 1, .paragraph) timestampAt 3 .timestamp (by simp),
        stepBoundary_stay w t wOff (some (wOff + (closestMatch t m rest).1 + (closestMatch t m rest).2), 1, .paragraph) sentenceAt 4 .sentence (by simp),
        stepBoundary_stay w t wOff (some (wOff + (closestMatch t m rest).1 + (closestMatch t m rest).2), 1, .paragraph) lineAt 5 .line (by simp)]
    exact wins_mk w t wOff paragraphAt paragraphAt_sound .paragraph m rest hms
      (by rw [hfb]) (by rw [hfb])
  · intro h1 h2
    obtain ⟨m, rest, hms⟩ := List.exists_cons_of_ne_nil h2
    have hfb : findBoundaryState w t wOff =
        (some (wOff + (closestMatch t m rest).1 + (closestMatch t m rest).2), 2, .speaker) := by
      rw [findBoundaryState, boundaries]
      simp only [List.foldl_cons, List.foldl_nil]
      rw [stepBoundary_skip w t wOff _ paragraphAt 1 .paragraph h1,
        stepBoundary_win w t wOff _ speakerAt 2 .speaker m rest hms (by decide),
        stepBoundary_stay w t wOff (some (wOff + (closestMatch t m rest).1 + (closestMatch t m rest).2), 2, .speaker) timestampAt 3 .timestamp (by simp),
        stepBoundary_stay w t wOff (some (wOff + (closestMatch t m rest).1 + (closestMatch t m rest).2), 2, .speaker) sentenceAt 4 .sentence (by simp),
        stepBoundary_stay w t wOff (some (wOff + (closestMatch t m rest).1 + (closestMatch t m rest).2), 2, .speaker) lineAt 5 .line (by simp)]
    exact wins_mk w t wOff speakerAt speakerAt_sound .speaker m rest hms
      (by rw [hfb]) (by rw [hfb])
  · intro h1 h2 h3
    obtain ⟨m, rest, hms⟩ := List.exists_cons_of_ne_nil h3
    have hfb : findBoundaryState w t wOff =
        (some (wOff + (closestMatch t m rest).1 + (closestMatch t m rest).2), 3, .timestamp) := by
      rw [findBoundaryState, boundaries]
      simp only [List.foldl_cons, List.foldl_nil]
      rw [stepBoundary_skip w t wOff _ paragraphAt 1 .paragraph h1,
        stepBoundary_skip w t wOff _ speakerAt 2 .speaker h2,
        stepBoundary_win w t wOff _ timestampAt 3 .timestamp m rest hms (by decide),
        stepBoundary_stay w t wOff (some (wOff + (closestMatch t m rest).1 + (closestMatch t m rest).2), 3, .timestamp) sentenceAt 4 .sentence (by simp),
        stepBoundary_stay w t wOff (some (wOff + (closestMatch t m rest).1 + (closestMatch t m rest).2), 3, .timestamp) lineAt 5 .line (by simp)]
    exact wins_mk w t wOff timestampAt timestampAt_sound .timestamp m rest hms
      (by rw [hfb]) (by rw [hfb])
  · intro h1 h2 h3 h4
    obtain ⟨m, rest, hms⟩ := List.exists_cons_of_ne_nil h4
    have hfb : findBoundaryState w t wOff =
        (some (wOff + (closestMatch t m rest).1 + (closestMatch t m rest).2), 4, .sentence) := by
      rw [findBoundaryState, boundaries]
      simp only [List.foldl_cons, List.foldl_nil]
      rw [stepBoundary_skip w t wOff _ paragraphAt 1 .paragraph h1,
        stepBoundary_skip w t wOff _ speakerAt 2 .speaker h2,
        stepBoundary_skip w t wOff _ timestampAt 3 .timestamp h3,
        stepBoundary_win w t wOff _ sentenceAt 4 .sentence m rest hms (by decide),
        stepBoundary_stay w t wOff (some (wOff + (closestMatch t m rest).1 + (closestMatch t m rest).2), 4, .sentence) lineAt 5 .line (by simp)]
    exact wins_mk w t wOff sentenceAt sentenceAt_sound .sentence m rest hms
      (by rw [hfb]) (by rw [hfb])
  · intro h1 h2 h3 h4 h5
    obtain ⟨m, rest, hms⟩ := List.exists_cons_of_ne_nil h5
    have hfb : findBoundaryState w t wOff =
        (some (wOff + (closestMatch t m rest).1 + (closestMatch t m rest).2), 5, .line) := by
      rw [findBoundaryState, boundaries]
      simp only [List.foldl_cons, List.foldl_nil]
      rw [stepBoundary_skip w t wOff _ paragraphAt 1 .paragraph h1,
        stepBoundary_skip w t wOff _ speakerAt 2 .speaker h2,
        stepBoundary_skip w t wOff _ timestampAt 3 .timestamp h3,
        stepBoundary_skip w t wOff _ sentenceAt 4 .sentence h4,
        stepBoundary_win w t wOff _ lineAt 5 .line m rest hms (by decide)]
    exact wins_mk w t wOff lineAt lineAt_sound .line m rest hms
      (by rw [hfb]) (by rw [hfb])

/-- Witness for C2: the paragraph level wins on a window containing a
blank-line run. -/
theorem findBoundary_priority_selection_witness :
    matchAllM paragraphAt ("a\n\nb").data ≠ [] ∧
    wins ("a\n\nb").data 0 7 (matchAllM paragraphAt ("a\n\nb").data) .paragraph :=
  ⟨by decide, (findBoundary_priority_selection ("a\n\nb").data 0 7).2.1 (by decide)⟩

/-- JS `content.split('\n')`. -/
def splitLines : List Char → List (List Char)
  | [] => [[]]
  | c :: rest =>
    if c = '\n' then [] :: splitLines rest
    else
      match splitLines rest with
      | l :: ls => (c :: l) :: ls
      | [] => [[c]]

/-- JS `Array.prototype.join(sep)`. -/
def joinSep (sep : List Char) : List (List Char) → List Char
  | [] => []
  | [l] => l
  | l :: ls => l ++ sep ++ joinSep sep ls

/-- JS `join('\n')`. -/
def joinLines (ls : List (List Char)) : List Char := joinSep ['\n'] ls

/-- JS `String.prototype.trim()` (trims WhiteSpace and LineTerminator). -/
def jsTrim (l : List Char) : List Char :=
  ((l.dropWhile isJsSpace).reverse.dropWhile isJsSpace).reverse

/-- JS `line.startsWith('## ')`. -/
def isHeading (l : List Char) : Bool :=
  match l with
  | '#' :: '#' :: ' ' :: _ => true
  | _ => false

def slugOk (c : Char) : Bool := isLowerAZ c || isDigit09 c

/-- JS `.replace(/[^a-z0-9]+/g, '-')`: every maximal run of characters
outside `[a-z0-9]` becomes a single hyphen. Fuel-structural; the fuel is
the list length. -/
def slugCollapseF : Nat → List Char → List Char
  | 0, _ => []
  | _ + 1, [] => []
  | fuel + 1, c :: rest =>
    if slugOk c then c :: slugCollapseF fuel rest
    else '-' :: slugCollapseF fuel (rest.dropWhile (fun d => !slugOk d))

def slugCollapse (l : List Char) : List Char := slugCollapseF l.length l

/-- JS `.replace(/^-|-$/g, '')` on a collapsed slug: drop one leading
and one trailing hyphen. -/
def stripEdgeHyphens (l : List Char) : List Char :=
  let l1 := match l with
    | '-' :: rest => rest
    | _ => l
  if l1.getLast? = some '-' then l1.dropLast else l1

/-- Slug derivation: lowercase the title, collapse runs outside a-z0-9 to a hyphen, strip edge hyphens. -/
def slugify (title : List Char) : List Char :=
  stripEdgeHyphens (slugCollapse (title.map Char.toLower))

structure Topic where
  title : List Char
  id : List Char
  startLine : Nat
  content : List Char
deriving DecidableEq, Repr

structure TMeta where
  title : List Char
  id : List Char
  startLine : Nat
deriving DecidableEq, Repr

/-- Pushing a finished topic: content is the trimmed newline-join of the
accumulated lines. -/
def finishTopic (m : TMeta) (cc : List (List Char)) : Topic :=
  ⟨m.title, m.id, m.startLine, jsTrim (joinLines cc)⟩

/-- The line loop of `parseTopics`: state is the remaining lines, the
0-based index of the next line, the current topic (metadata plus
accumulated lines) if any, and the topics pushed so far. -/
def parseGo : List (List Char) → Nat → Option (TMeta × List (List Char)) → List Topic → List Topic
  | [], _, none, topics => topics
  | [], _, some (m, cc), topics => topics ++ [finishTopic m cc]
  | line :: rest, i, cur, topics =>
    if isHeading line then
      parseGo rest (i + 1)
        (some (⟨jsTrim (line.drop 3), slugify (jsTrim (line.drop 3)), i + 1⟩, [line]))
        (match cur with
         | some (m, cc) => topics ++ [finishTopic m cc]
         | none => topics)
    else
      match cur with
      | some (m, cc) => parseGo rest (i + 1) (some (m, cc ++ [line])) topics
      | none =>
        if topics.isEmpty ∧ ¬ (jsTrim line).isEmpty then
          parseGo rest (i + 1)
            (some (⟨("Introduction").data, ("introduction").data, 1⟩, [line])) topics
        else parseGo rest (i + 1) none topics

/-- The function `parseTopics(markdownContent)`. -/
def parseTopics (doc : List Char) : List Topic :=
  parseGo (splitLines doc) 0 none []

/-- The same loop, keeping only each topic's accumulated (untrimmed)
line block; used to state the round-trip property precisely. -/
def segsGo : List (List Char) → Option (List (List Char)) → List (List (List Char)) →
    List (List (List Char))
  | [], none, acc => acc
  | [], some cc, acc => acc ++ [cc]
  | line :: rest, cur, acc =>
    if isHeading line then
      segsGo rest (some [line])
        (match cur with
         | some cc => acc ++ [cc]
         | none => acc)
    else
      match cur with
      | some cc => segsGo rest (some (cc ++ [line])) acc
      | none =>
        if acc.isEmpty ∧ ¬ (jsTrim line).isEmpty then segsGo rest (some [line]) acc
        else segsGo rest none acc

/-- The per-topic accumulated line blocks of a document. -/
def topicSegs (doc : List Char) : List (List (List Char)) :=
  segsGo (splitLines doc) none []

lemma splitLines_ne_nil : ∀ s : List Char, splitLines s ≠ [] := by
  intro s
  cases s with
  | nil => simp [splitLines]
  | cons c rest =>
    rw [splitLines]
    by_cases hc : c = '\n'
    · simp [hc]
    · rw [if_neg hc]
      cases splitLines rest with
      | nil => simp
      | cons l ls => simp

lemma joinLines_splitLines : ∀ s : List Char, joinLines (splitLines s) = s := by
  intro s
  induction s with
  | nil => rfl
  | cons c rest ih =>
    rw [splitLines]
    by_cases hc : c = '\n'
    · rw [if_pos hc]
      obtain ⟨l, ls, hls⟩ := List.exists_cons_of_ne_nil (splitLines_ne_nil rest)
      rw [hls] at ih ⊢
      subst hc
      simpa [joinLines, joinSep] using ih
    · rw [if_neg hc]
      cases hls : splitLines rest with
      | nil => exact absurd hls (splitLines_ne_nil rest)
      | cons l ls =>
        rw [hls] at ih
        cases ls with
        | nil =>
          simpa [joinLines, joinSep] using ih
        | cons l2 ls2 =>
          simp only [joinLines, joinSep, List.cons_append, List.append_assoc] at ih ⊢
          rw [ih]

/-- While a topic is open, every remaining line is accumulated: the
final blocks are the previous ones, then the open block extended with
all remaining lines (split at further headings). -/
lemma segsGo_some_flatten : ∀ (lines : List (List Char)) (cc : List (List Char))
    (acc : List (List (List Char))),
    (segsGo lines (some cc) acc).flatten = acc.flatten ++ cc ++ lines := by
  intro lines
  induction lines with
  | nil => intro cc acc; simp [segsGo]
  | cons line rest ih =>
    intro cc acc
    rw [segsGo]
    by_cases hh : isHeading line
    · rw [if_pos hh, ih]
      simp
    · rw [if_neg hh, ih]
      simp

lemma heading_trim_ne (l : List Char) (h : isHeading l) : ¬ (jsTrim l).isEmpty := by
  simp only [isHeading] at h
  split at h
  · rename_i tail
    rw [jsTrim]
    have hsp : ¬ isJsSpace '#' = true := by decide
    rw [List.dropWhile_cons, if_neg hsp]
    intro hemp
    simp only [List.isEmpty_iff] at hemp
    have : '#' ∈ (('#' :: '#' :: ' ' :: tail).reverse.dropWhile isJsSpace).reverse := by
      rw [List.mem_reverse]
      have hrev : ('#' :: '#' :: ' ' :: tail).reverse = (('#' :: ' ' :: tail).reverse) ++ ['#'] := by
        simp
      rw [hrev]
      have : ∀ (pre : List Char), '#' ∈ (pre ++ ['#']).dropWhile isJsSpace := by
        intro pre
        induction pre with
        | nil => simp [List.dropWhile_cons, hsp]
        | cons a t iht =>
          rw [List.cons_append, List.dropWhile_cons]
          by_cases ha : isJsSpace a
          · rw [if_pos ha]; exact iht
          · rw [if_neg ha]; simp
      exact this _
    rw [hemp] at this
    simp at this
  · exact absurd h (by simp)

/-- With no open topic and no topic yet, the blocks flatten to the lines
with their leading blank lines removed. -/
lemma segsGo_none_flatten : ∀ lines : List (List Char),
    (segsGo lines none []).flatten = lines.dropWhile (fun l => (jsTrim l).isEmpty) := by
  intro lines
  induction lines with
  | nil => rfl
  | cons line rest ih =>
    rw [segsGo]
    by_cases hh : isHeading line
    · rw [if_pos hh]
      rw [List.dropWhile_cons, if_neg (by simpa using heading_trim_ne line hh)]
      rw [segsGo_some_flatten]
      simp
    · rw [if_neg hh]
      by_cases hbl : (jsTrim line).isEmpty
      · rw [if_neg (by simp [hbl]), List.dropWhile_cons, if_pos (by simpa using hbl)]
        exact ih
      · rw [if_pos (by simp [hbl]), List.dropWhile_cons, if_neg (by simpa using hbl)]
        rw [segsGo_some_flatten]
        simp

/-- Correspondence between the topic loop and the block loop: the stored
contents are exactly the trimmed newline-joins of the blocks. -/
lemma parseGo_segsGo : ∀ (lines : List (List Char)) (i : Nat)
    (curT : Option (TMeta × List (List Char))) (curS : Option (List (List Char)))
    (topics : List Topic) (acc : List (List (List Char))),
    (match curT, curS with
     | none, none => True
     | some (_, cc), some cc2 => cc = cc2
     | _, _ => False) →
    topics.map Topic.content = acc.map (fun b => jsTrim (joinLines b)) →
    (parseGo lines i curT topics).map Topic.content =
      (segsGo lines curS acc).map (fun b => jsTrim (joinLines b)) := by
  intro lines
  induction lines with
  | nil =>
    intro i curT curS topics acc hrel hmap
    cases curT with
    | none =>
      cases curS with
      | none => simpa [parseGo, segsGo] using hmap
      | some cc2 => exact absurd hrel (by simp)
    | some mc =>
      obtain ⟨m, cc⟩ := mc
      cases curS with
      | none => exact absurd hrel (by simp)
      | some cc2 =>
        have hcc : cc = cc2 := hrel
        subst hcc
        simp [parseGo, segsGo, hmap, finishTopic]
  | cons line rest ih =>
    intro i curT curS topics acc hrel hmap
    cases curT with
    | some mc =>
      obtain ⟨m, cc⟩ := mc
      cases curS with
      | none => exact absurd hrel (by simp)
      | some cc2 =>
        have hcc : cc = cc2 := hrel
        subst hcc
        simp only [parseGo, segsGo]
        by_cases hh : isHeading line
        · rw [if_pos hh, if_pos hh]
          refine ih (i + 1) _ _ _ _ rfl ?_
          simp [hmap, finishTopic]
        · rw [if_neg hh, if_neg hh]
          exact ih (i + 1) _ _ _ _ rfl hmap
    | none =>
      cases curS with
      | some cc2 => exact absurd hrel (by simp)
      | none =>
        have hlth := congrArg List.length hmap
        simp only [List.length_map] at hlth
        have hlen : topics.isEmpty = acc.isEmpty := by
          cases topics with
          | nil =>
            cases acc with
            | nil => rfl
            | cons b u => simp at hlth
          | cons a t =>
            cases acc with
            | nil => simp at hlth
            | cons b u => rfl
        simp only [parseGo, segsGo]
        by_cases hh : isHeading line
        · rw [if_pos hh, if_pos hh]
          exact ih (i + 1) _ _ _ _ rfl hmap
        · rw [if_neg hh, if_neg hh]
          by_cases hcond : topics.isEmpty = true ∧ ¬ (jsTrim line).isEmpty = true
          · have hcond2 : acc.isEmpty = true ∧ ¬ (jsTrim line).isEmpty = true := by
              rw [← hlen]
              exact hcond
            rw [if_pos hcond, if_pos hcond2]
            exact ih (i + 1) _ _ _ _ rfl hmap
          · have hcond2 : ¬ (acc.isEmpty = true ∧ ¬ (jsTrim line).isEmpty = true) := by
              rw [← hlen]
              exact hcond
            rw [if_neg hcond, if_neg hcond2]
            exact ih (i + 1) _ _ _ _ trivial hmap

/-- A document whose every line is blank yields no topics. -/
lemma parseGo_all_blank : ∀ (lines : List (List Char)) (i : Nat),
    (∀ l ∈ lines, (jsTrim l).isEmpty) → parseGo lines i none [] = [] := by
  intro lines
  induction lines with
  | nil => intro i _; rfl
  | cons line rest ih =>
    intro i hbl
    simp only [parseGo]
    have hline := hbl line (by simp)
    have hh : ¬ isHeading line = true := by
      intro hcon
      exact heading_trim_ne line hcon hline
    rw [if_neg hh, if_neg (by simp [hline])]
    exact ih (i + 1) (fun l hl => hbl l (List.mem_cons_of_mem line hl))

/-- C5, counterexample. On the spec's own scenario document, the topic
contents are trimmed, so neither plain concatenation nor a newline-join
of the contents reproduces the document: the blank line between the two
sections is lost. -/
theorem parseTopics_roundtrip_cex :
    ((parseTopics ("## A\nfoo\n\n## B\nbar").data).map Topic.content).flatten ≠
      ("## A\nfoo\n\n## B\nbar").data ∧
    joinLines ((parseTopics ("## A\nfoo\n\n## B\nbar").data).map Topic.content) ≠
      ("## A\nfoo\n\n## B\nbar").data := by
  decide

/-- C5, amended. Splitting into lines and rejoining is lossless; the
per-topic accumulated line blocks, flattened, reproduce the document's
lines minus leading blank lines (pre-first-heading material being
bucketed into the synthesized Introduction block when some such line is
non-blank); each stored topic content is the trimmed newline-join of its
block — so concatenating the stored contents reproduces the document
only up to the whitespace trimmed at each topic's boundaries; and when
every line is blank (no content and no headers) the topic list is empty. -/
theorem parseTopics_roundtrip_amended (doc : List Char) :
    joinLines (splitLines doc) = doc ∧
    (topicSegs doc).flatten = (splitLines doc).dropWhile (fun l => (jsTrim l).isEmpty) ∧
    (parseTopics doc).map Topic.content = (topicSegs doc).map (fun b => jsTrim (joinLines b)) ∧
    ((∀ l ∈ splitLines doc, (jsTrim l).isEmpty) → parseTopics doc = []) := by
  refine ⟨joinLines_splitLines doc, segsGo_none_flatten _, ?_, ?_⟩
  · exact parseGo_segsGo (splitLines doc) 0 none none [] [] trivial rfl
  · intro h
    exact parseGo_all_blank (splitLines doc) 0 h

/-- Witness for C5's amended claim on an all-blank document. -/
theorem parseTopics_roundtrip_amended_witness :
    joinLines (splitLines ("\n  \n").data) = ("\n  \n").data ∧
    ((∀ l ∈ splitLines ("\n  \n").data, (jsTrim l).isEmpty) ∧
      parseTopics ("\n  \n").data = []) :=
  ⟨(parseTopics_roundtrip_amended ("\n  \n").data).1,
   by decide,
   (parseTopics_roundtrip_amended ("\n  \n").data).2.2.2 (by decide)⟩

/-- Once a topic is open, the already-pushed topics are just a prefix of
the final result. -/
lemma parseGo_append : ∀ (lines : List (List Char)) (i : Nat) (m : TMeta)
    (cc : List (List Char)) (topics : List Topic),
    parseGo lines i (some (m, cc)) topics = topics ++ parseGo lines i (some (m, cc)) [] := by
  intro lines
  induction lines with
  | nil => intro i m cc topics; simp [parseGo]
  | cons line rest ih =>
    intro i m cc topics
    simp only [parseGo]
    by_cases hh : isHeading line
    · rw [if_pos hh, if_pos hh, ih _ _ _ (topics ++ [finishTopic m cc]),
        ih _ _ _ ([] ++ [finishTopic m cc])]
      simp
    · rw [if_neg hh, if_neg hh]
      exact ih _ _ _ topics

/-- While a topic is open, it accumulates exactly the following lines up
to (excluding) the next heading, and is the next topic pushed. -/
lemma parseGo_some_head : ∀ (lines : List (List Char)) (i : Nat) (m : TMeta)
    (cc : List (List Char)) (topics : List Topic),
    ∃ rest2, parseGo lines i (some (m, cc)) topics =
      topics ++ finishTopic m (cc ++ lines.takeWhile (fun l => ! isHeading l)) :: rest2 := by
  intro lines
  induction lines with
  | nil =>
    intro i m cc topics
    exact ⟨[], by simp [parseGo]⟩
  | cons line rest ih =>
    intro i m cc topics
    by_cases hh : isHeading line
    · refine ⟨parseGo rest (i + 1)
        (some (⟨jsTrim (line.drop 3), slugify (jsTrim (line.drop 3)), i + 1⟩, [line])) [], ?_⟩
      simp only [parseGo]
      rw [if_pos hh, parseGo_append]
      rw [List.takeWhile_cons, show (! isHeading line) = false by simp [hh]]
      simp
    · obtain ⟨rest2, hr⟩ := ih (i + 1) m (cc ++ [line]) topics
      refine ⟨rest2, ?_⟩
      simp only [parseGo]
      rw [if_neg hh, hr]
      rw [List.takeWhile_cons, show (! isHeading line) = true by simp [hh]]
      simp

/-- If some non-blank line appears before the first heading, the first
topic produced is the synthesized Introduction, accumulating the
preamble lines from the first non-blank one on. -/
lemma parseGo_pre : ∀ (lines : List (List Char)) (i : Nat),
    (lines.takeWhile (fun l => ! isHeading l)).any (fun l => ! (jsTrim l).isEmpty) →
    ∃ rest2, parseGo lines i none [] =
      finishTopic ⟨("Introduction").data, ("introduction").data, 1⟩
        ((lines.takeWhile (fun l => ! isHeading l)).dropWhile (fun l => (jsTrim l).isEmpty)) ::
        rest2 := by
  intro lines
  induction lines with
  | nil => intro i h; simp at h
  | cons line rest ih =>
    intro i h
    by_cases hh : isHeading line
    · have htw : (line :: rest).takeWhile (fun l => ! isHeading l) = [] := by
        simp [List.takeWhile_cons, hh]
      rw [htw] at h
      simp at h
    · have htw : (line :: rest).takeWhile (fun l => ! isHeading l) =
          line :: rest.takeWhile (fun l => ! isHeading l) := by
        simp [List.takeWhile_cons, hh]
      rw [htw] at h ⊢
      by_cases hbl : (jsTrim line).isEmpty
      · have h2 : ((rest.takeWhile (fun l => ! isHeading l)).any
            (fun l => ! (jsTrim l).isEmpty)) = true := by
          rw [List.any_cons] at h
          simpa [hbl] using h
        obtain ⟨rest2, hr⟩ := ih (i + 1) h2
        refine ⟨rest2, ?_⟩
        simp only [parseGo]
        rw [if_neg hh, if_neg (by simp [hbl]), hr,
          List.dropWhile_cons, if_pos (by simpa using hbl)]
      · obtain ⟨rest2, hr⟩ := parseGo_some_head rest (i + 1)
          ⟨("Introduction").data, ("introduction").data, 1⟩ [line] []
        refine ⟨rest2, ?_⟩
        simp only [parseGo]
        rw [if_neg hh, if_pos (by simp [hbl]), hr,
          List.dropWhile_cons, if_neg (by simpa using hbl)]
        simp

lemma mem_of_mem_dropWhileL {α : Type} (p : α → Bool) :
    ∀ (l : List α) (x : α), x ∈ l.dropWhile p → x ∈ l := by
  intro l
  induction l with
  | nil => simp
  | cons a t ih =>
    intro x hx
    rw [List.dropWhile_cons] at hx
    by_cases ha : p a
    · rw [if_pos ha] at hx
      exact List.mem_cons_of_mem a (ih x hx)
    · rw [if_neg ha] at hx
      exact hx

/-- C6. Introduction synthesis: whenever some non-blank line precedes the
first level-2 heading, the first topic returned is
`{title := Introduction, id := introduction, startLine := 1}`, whose
content is the trimmed join of exactly the pre-heading lines (from the
first non-blank one on) — none of which is a heading line; and the spec
scenario `"intro text\n\n## Only\nbody"` yields exactly its two stated
topics. -/
theorem parseTopics_introduction_synthesis :
    (∀ doc : List Char,
      ((splitLines doc).takeWhile (fun l => ! isHeading l)).any
          (fun l => ! (jsTrim l).isEmpty) →
      ∃ rest2,
        parseTopics doc =
          { title := ("Introduction").data, id := ("introduction").data, startLine := 1,
            content := jsTrim (joinLines
              (((splitLines doc).takeWhile (fun l => ! isHeading l)).dropWhile
                (fun l => (jsTrim l).isEmpty))) } :: rest2 ∧
        ∀ l ∈ ((splitLines doc).takeWhile (fun l => ! isHeading l)).dropWhile
            (fun l => (jsTrim l).isEmpty), ¬ isHeading l) ∧
    parseTopics ("intro text\n\n## Only\nbody").data =
      [⟨("Introduction").data, ("introduction").data, 1, ("intro text").data⟩,
       ⟨("Only").data, ("only").data, 3, ("## Only\nbody").data⟩] := by
  constructor
  · intro doc hpre
    obtain ⟨rest2, hr⟩ := parseGo_pre (splitLines doc) 0 hpre
    refine ⟨rest2, ?_, ?_⟩
    · rw [parseTopics, hr]
      rfl
    · intro l hl
      have hl2 := mem_of_mem_dropWhileL _ _ _ hl
      have := List.mem_takeWhile_imp hl2
      simpa using this
  · decide

/-- Witness for C6 on the spec's scenario document. -/
theorem parseTopics_introduction_synthesis_witness :
    (((splitLines ("intro text\n\n## Only\nbody").data).takeWhile
        (fun l => ! isHeading l)).any (fun l => ! (jsTrim l).isEmpty) = true) ∧
    (∃ rest2,
      parseTopics ("intro text\n\n## Only\nbody").data =
        { title := ("Introduction").data, id := ("introduction").data, startLine := 1,
          content := jsTrim (joinLines
            (((splitLines ("intro text\n\n## Only\nbody").data).takeWhile
                (fun l => ! isHeading l)).dropWhile
              (fun l => (jsTrim l).isEmpty))) } :: rest2 ∧
      ∀ l ∈ ((splitLines ("intro text\n\n## Only\nbody").data).takeWhile
          (fun l => ! isHeading l)).dropWhile (fun l => (jsTrim l).isEmpty),
        ¬ isHeading l) :=
  ⟨by decide,
   parseTopics_introduction_synthesis.1 ("intro text\n\n## Only\nbody").data (by decide)⟩

/-- JS `filename.endsWith('.md')`. -/
def endsWithMd (filename : List Char) : Bool :=
  List.isSuffixOf (".md").data filename

/-- The whole-document rendering of a context file entry: two newlines,
a `--- File: <name> ---` header line, two newlines, then the content. -/
def wholeRender (filename content : List Char) : List Char :=
  ("\n\n--- File: ").data ++ filename ++ (" ---\n\n").data ++ content

/-- The per-file context rendering of `/api/prompt` and
`/api/run-saved-prompt`: a string file spec has `topicIds = none`; an
object spec carries its `topicIds`. If topic IDs are given, non-empty,
and the file is markdown, the matching topics are rendered; when no ID
matches, the code falls back to the whole file. -/
def renderFileSpec (filename : List Char) (topicIds : Option (List (List Char)))
    (content : List Char) : List Char :=
  match topicIds with
  | some ids =>
    if 0 < ids.length ∧ endsWithMd filename then
      let selected := (parseTopics content).filter (fun t => ids.contains t.id)
      if 0 < selected.length then
        ("\n\n--- File: ").data ++ filename ++ (" (Topics: ").data ++
          joinSep (", ").data (selected.map Topic.title) ++ (") ---\n\n").data ++
          joinSep ("\n\n").data (selected.map Topic.content)
      else wholeRender filename content
    else wholeRender filename content
  | none => wholeRender filename content

/-- C7. Stale topic-ID fallback: when none of the requested topic IDs
matches a topic of the document, the assembler renders the whole
document in the whole-document format instead of emitting nothing. -/
theorem renderFileSpec_stale_fallback (filename : List Char) (ids : List (List Char))
    (content : List Char) (h : ∀ t ∈ parseTopics content, ¬ ids.contains t.id) :
    renderFileSpec filename (some ids) content = wholeRender filename content := by
  have hsel : (parseTopics content).filter (fun t => ids.contains t.id) = [] := by
    rw [List.filter_eq_nil_iff]
    intro t ht
    simpa using h t ht
  rw [renderFileSpec]
  by_cases hcond : 0 < ids.length ∧ endsWithMd filename
  · rw [if_pos hcond]
    simp only [hsel]
    rw [if_neg (by simp)]
  · rw [if_neg hcond]

/-- Witness for C7 with a stale ID against a concrete document. -/
theorem renderFileSpec_stale_fallback_witness :
    (∀ t ∈ parseTopics ("## A\nx").data, ¬ (["stale-id".data].contains t.id)) ∧
    renderFileSpec ("doc.md").data (some ["stale-id".data]) ("## A\nx").data =
      wholeRender ("doc.md").data ("## A\nx").data :=
  ⟨by decide,
   renderFileSpec_stale_fallback ("doc.md").data ["stale-id".data] ("## A\nx").data (by decide)⟩

/-- JS `s.slice(-n)`: the last `n` characters, clamped to the string's
length; `slice(-0)` is `slice(0)`, the whole string. -/
def jsSliceNeg (l : List Char) (n : Nat) : List Char :=
  if n = 0 then l else l.drop (l.length - n)

/-- The overlap-context extraction of `formatTranscription`: `before` is
the last `osize` characters of the previous chunk (when the chunk is not
the first and there are several chunks), `after` the first `osize`
characters of the next chunk (when not the last). -/
def buildOverlap (chunks : List (List Char)) (i : Nat) (osize : Nat) :
    List Char × List Char :=
  ((if 1 < chunks.length ∧ 0 < i then jsSliceNeg (chunks.getD (i - 1) []) osize else []),
   (if 1 < chunks.length ∧ i < chunks.length - 1 then (chunks.getD (i + 1) []).take osize
    else []))

/-- C8. Overlap window bounds: `before` is empty for the first chunk and
otherwise exactly the last `osize` characters of the previous chunk,
clamped to its length; `after` is empty for the last chunk and otherwise
exactly the first `osize` characters of the next chunk, clamped; both
lengths are at most `osize` and at most the corresponding neighbour's
length. (The embedding is a pure function of the chunk list, which it
returns unchanged by construction.) -/
theorem buildOverlap_bounds (chunks : List (List Char)) (i osize : Nat)
    (hi : i < chunks.length) (ho : 1 ≤ osize) :
    (i = 0 → (buildOverlap chunks i osize).1 = []) ∧
    (0 < i → (buildOverlap chunks i osize).1 =
      (chunks.getD (i - 1) []).drop ((chunks.getD (i - 1) []).length - osize)) ∧
    (buildOverlap chunks i osize).1.length ≤ osize ∧
    (buildOverlap chunks i osize).1.length ≤ (chunks.getD (i - 1) []).length ∧
    (i = chunks.length - 1 → (buildOverlap chunks i osize).2 = []) ∧
    (i < chunks.length - 1 → (buildOverlap chunks i osize).2 =
      (chunks.getD (i + 1) []).take osize) ∧
    (buildOverlap chunks i osize).2.length ≤ osize ∧
    (buildOverlap chunks i osize).2.length ≤ (chunks.getD (i + 1) []).length := by
  have hno : ¬ osize = 0 := by omega
  refine ⟨?_, ?_, ?_, ?_, ?_, ?_, ?_, ?_⟩
  · intro h0
    simp [buildOverlap, h0]
  · intro hpos
    have hlen : 1 < chunks.length := by omega
    simp [buildOverlap, hlen, hpos, jsSliceNeg, hno]
  · by_cases hc : 1 < chunks.length ∧ 0 < i
    · simp only [buildOverlap, if_pos hc, jsSliceNeg, if_neg hno, List.length_drop]
      omega
    · simp [buildOverlap, hc]
  · by_cases hc : 1 < chunks.length ∧ 0 < i
    · simp only [buildOverlap, if_pos hc, jsSliceNeg, if_neg hno, List.length_drop]
      omega
    · simp [buildOverlap, hc]
  · intro hlast
    have : ¬ (1 < chunks.length ∧ i < chunks.length - 1) := by omega
    simp [buildOverlap, this]
  · intro hmid
    have : 1 < chunks.length ∧ i < chunks.length - 1 := by omega
    simp [buildOverlap, this]
  · by_cases hc : 1 < chunks.length ∧ i < chunks.length - 1
    · simp only [buildOverlap, if_pos hc, List.length_take]
      omega
    · simp [buildOverlap, hc]
  · by_cases hc : 1 < chunks.length ∧ i < chunks.length - 1
    · simp only [buildOverlap, if_pos hc, List.length_take]
      omega
    · simp [buildOverlap, hc]

/-- Witness for C8 at a concrete two-chunk sequence. -/
theorem buildOverlap_bounds_witness :
    (1 < ["abc".data, "d".data].length ∧ 1 ≤ 2) ∧
    (0 < 1 → (buildOverlap ["abc".data, "d".data] 1 2).1 =
      (["abc".data, "d".data].getD 0 []).drop
        ((["abc".data, "d".data].getD 0 []).length - 2)) ∧
    (buildOverlap ["abc".data, "d".data] 1 2).1.length ≤ 2 :=
  ⟨⟨by decide, by decide⟩,
   (buildOverlap_bounds ["abc".data, "d".data] 1 2 (by decide) (by decide)).2.1,
   (buildOverlap_bounds ["abc".data, "d".data] 1 2 (by decide) (by decide)).2.2.1⟩

/-- The error placeholder the chunk loop substitutes when the external
transform of chunk `i` (0-based) fails: a heading line naming the 1-based
chunk number and the error, followed by the raw chunk text verbatim. -/
def errorPlaceholder (i : Nat) (chunk : List Char) : List Char :=
  ("\n\n## Chunk ").data ++ (Nat.repr (i + 1)).data ++
    (" (Error formatting)\n\n").data ++ chunk ++ ("\n\n").data

/-- The per-chunk transform loop of `formatTranscription`, with the
external LLM transform modelled as an oracle `tr` giving the formatted
text for each chunk index, or `none` when it throws: a failed chunk is
replaced by its error placeholder and the loop continues. -/
def formatChunksGo (tr : Nat → Option (List Char)) : Nat → List (List Char) → List (List Char)
  | _, [] => []
  | i, c :: rest =>
    (match tr i with
     | some t => t
     | none => errorPlaceholder i c) :: formatChunksGo tr (i + 1) rest

/-- The chunk/format/combine core of `formatTranscription`: split, format
each chunk (recovering failures as placeholders), and join with the
`\n\n---\n\n` divider when more than one chunk exists, else return the
single formatted chunk (`none` models the `undefined` of an empty
document, whose chunk list is empty). -/
def formatTranscription (tr : Nat → Option (List Char)) (rawText : List Char) (S : Nat) :
    Option (List Char) :=
  if 1 < (splitIntoChunks rawText S).1.length then
    some (joinSep ("\n\n---\n\n").data (formatChunksGo tr 0 (splitIntoChunks rawText S).1))
  else (formatChunksGo tr 0 (splitIntoChunks rawText S).1).head?

lemma formatChunksGo_length (tr : Nat → Option (List Char)) :
    ∀ (chunks : List (List Char)) (i : Nat), (formatChunksGo tr i chunks).length = chunks.length := by
  intro chunks
  induction chunks with
  | nil => intro i; rfl
  | cons c rest ih =>
    intro i
    simp only [formatChunksGo, List.length_cons, ih]

lemma formatChunksGo_getD (tr : Nat → Option (List Char)) :
    ∀ (chunks : List (List Char)) (i j : Nat), j < chunks.length →
      (formatChunksGo tr i chunks).getD j [] =
        (match tr (i + j) with
         | some t => t
         | none => errorPlaceholder (i + j) (chunks.getD j [])) := by
  intro chunks
  induction chunks with
  | nil => intro i j hj; simp at hj
  | cons c rest ih =>
    intro i j hj
    cases j with
    | zero => simp [formatChunksGo]
    | succ k =>
      simp only [formatChunksGo, List.getD_cons_succ]
      have hk : k < rest.length := by
        simp only [List.length_cons] at hj
        omega
      rw [ih (i + 1) k hk]
      have harith : i + 1 + k = i + (k + 1) := by omega
      rw [harith]

lemma formatChunksGo_all_fail (tr : Nat → Option (List Char)) (hfail : ∀ j, tr j = none) :
    ∀ (chunks : List (List Char)) (i : Nat),
      formatChunksGo tr i chunks = formatChunksGo (fun _ => none) i chunks := by
  intro chunks
  induction chunks with
  | nil => intro i; rfl
  | cons c rest ih =>
    intro i
    simp only [formatChunksGo, hfail i, ih]

/-- C9. Per-chunk failure recovery: a transform failure at one chunk does
not abort the run — the formatted list always has one entry per chunk,
each entry depending only on that chunk's own transform outcome, with
failures replaced by a placeholder that contains the raw chunk text
verbatim; and when every chunk fails, the operation still produces an
output document composed entirely of such placeholders. -/
theorem formatTranscription_failure_recovery :
    (∀ (tr : Nat → Option (List Char)) (chunks : List (List Char)) (i : Nat),
      (formatChunksGo tr i chunks).length = chunks.length) ∧
    (∀ (tr : Nat → Option (List Char)) (chunks : List (List Char)) (j : Nat),
      j < chunks.length →
      (formatChunksGo tr 0 chunks).getD j [] =
        (match tr j with
         | some t => t
         | none => errorPlaceholder j (chunks.getD j []))) ∧
    (∀ (i : Nat) (chunk : List Char), List.IsInfix chunk (errorPlaceholder i chunk)) ∧
    (∀ (tr : Nat → Option (List Char)) (rawText : List Char) (S : Nat),
      1 ≤ S → rawText ≠ [] → (∀ j, tr j = none) →
      formatTranscription tr rawText S =
        some (if 1 < (splitIntoChunks rawText S).1.length
          then joinSep ("\n\n---\n\n").data
            (formatChunksGo (fun _ => none) 0 (splitIntoChunks rawText S).1)
          else errorPlaceholder 0 ((splitIntoChunks rawText S).1.headD []))) := by
  refine ⟨fun tr chunks i => formatChunksGo_length tr chunks i, ?_, ?_, ?_⟩
  · intro tr chunks j hj
    have := formatChunksGo_getD tr chunks 0 j hj
    simpa using this
  · intro i chunk
    exact ⟨("\n\n## Chunk ").data ++ (Nat.repr (i + 1)).data ++ (" (Error formatting)\n\n").data,
      ("\n\n").data, by simp [errorPlaceholder]⟩
  · intro tr rawText S hS hne hfail
    have hjoin := (chunkLoop_main rawText S hS rawText.length 0 (by omega) (by omega)).1
    have hchunks : (splitIntoChunks rawText S).1 ≠ [] := by
      intro hnil
      rw [splitIntoChunks] at hnil
      rw [hnil] at hjoin
      simp only [List.flatten_nil, List.drop_zero] at hjoin
      exact hne hjoin.symm
    rw [formatTranscription, formatChunksGo_all_fail tr hfail]
    by_cases hlen : 1 < (splitIntoChunks rawText S).1.length
    · rw [if_pos hlen, if_pos hlen]
    · rw [if_neg hlen, if_neg hlen]
      obtain ⟨c, rest, hc⟩ := List.exists_cons_of_ne_nil hchunks
      rw [hc]
      cases rest with
      | nil => simp [formatChunksGo, hfail 0]
      | cons c2 rest2 =>
        rw [hc] at hlen
        simp at hlen

/-- Witness for C9's all-fail case at a concrete document. -/
theorem formatTranscription_failure_recovery_witness :
    (1 ≤ 1 ∧ ("ab").data ≠ [] ∧ (∀ j : Nat, (fun _ : Nat => (none : Option (List Char))) j = none)) ∧
    formatTranscription (fun _ => none) ("ab").data 1 =
      some (if 1 < (splitIntoChunks ("ab").data 1).1.length
        then joinSep ("\n\n---\n\n").data
          (formatChunksGo (fun _ => none) 0 (splitIntoChunks ("ab").data 1).1)
        else errorPlaceholder 0 ((splitIntoChunks ("ab").data 1).1.headD [])) :=
  ⟨⟨by decide, by decide, fun j => rfl⟩,
   formatTranscription_failure_recovery.2.2.2 (fun _ => none) ("ab").data 1
     (by decide) (by decide) (fun j => rfl)⟩

/-- C4, counterexample. With target size 0 on the non-empty document
`"abc"`, the computed cut point equals the cursor; the splitter does not
abort with an error: it returns normally with an empty chunk list (and
empty `boundaryInfo`), silently dropping the whole remaining text. -/
theorem splitIntoChunks_zero_length_policy_cex :
    splitIntoChunks ("abc").data 0 = ([], []) ∧ ("abc").data ≠ [] ∧
    (splitIntoChunks ("abc").data 0).1.flatten ≠ ("abc").data := by
  decide

/-- C4, amended. The splitter never emits a zero-length chunk, for every
target size including 0; but when a computed cut point equals the cursor
(possible only for target size 0) it merely logs and breaks out of the
loop, returning the chunks accumulated so far — dropping the remaining
text — with no `ChunkingInvariantViolation` signalled to the caller. For
every target size `S ≥ 1` the cut point always strictly advances, so no
text is ever dropped. -/
theorem splitIntoChunks_zero_length_policy_amended (text : List Char) (S : Nat) :
    (∀ c ∈ (splitIntoChunks text S).1, c ≠ []) ∧
    (1 ≤ S → (splitIntoChunks text S).1.flatten = text) := by
  constructor
  · intro c hc
    exact chunkLoop_nonempty text S text.length 0 (by omega) c hc
  · intro hS
    have h := chunkLoop_main text S hS text.length 0 (by omega) (by omega)
    rw [splitIntoChunks]
    simpa using h.1

/-- Witness for C4's amended claim at a concrete document and size. -/
theorem splitIntoChunks_zero_length_policy_amended_witness :
    (("ab\ncd").data.take 3 ∈ (splitIntoChunks ("ab\ncd").data 3).1 ∧
       ("ab\ncd").data.take 3 ≠ []) ∧
    (1 ≤ 3 ∧ (splitIntoChunks ("ab\ncd".data) 3).1.flatten = ("ab\ncd").data) :=
  ⟨⟨by decide,
     (splitIntoChunks_zero_length_policy_amended ("ab\ncd").data 3).1
       (("ab\ncd").data.take 3) (by decide)⟩,
   by decide,
   (splitIntoChunks_zero_length_policy_amended ("ab\ncd").data 3).2 (by decide)⟩

end ConvAgent
